import Mathlib

/-!
Verification of the `mind-agents/fix_types.py` script.

The script reads one hard-coded file, applies
`re.sub(r'result as GenericData', 'result as unknown as GenericData', content)`
to its full contents, writes the result back to the same path, and prints a
fixed confirmation line.

The embedding below models
* the text transformation as a left-to-right scan over `List Char`
  (`subst`), replacing each leftmost occurrence of the pattern;
* the regular-expression machinery of `re.sub` as a small regex AST with
  Python's backtracking priority semantics (`mlens`, `pyReSub`), used to show
  the regex substitution coincides with the literal replacement;
* the top-level run (read, transform, write, print) as a function over the
  target file's state together with a failure schedule for the four I/O
  steps (`runScript`), recording an event trace.  Following Python file
  semantics, `open(path, 'w')` truncates the file to empty as soon as it
  succeeds, before any data is written.
-/

/-- The literal pattern of the `re.sub` call on line 8 of the script. -/
def pat : List Char := "result as GenericData".data

/-- The literal replacement of the `re.sub` call on line 8 of the script. -/
def rep : List Char := "result as unknown as GenericData".data

/-- The confirmation line printed on line 14 of the script. -/
def msg : List Char := "Replacement completed".data

/-- The hard-coded target path used by both `open` calls of the script. -/
def targetPath : List Char :=
  "/home/cid/CursorProjects/symindx/mind-agents/src/extensions/telegram/index.ts".data

/-- Fuelled scan implementing the substitution: at each position, if the
pattern starts here, emit the replacement and skip past the match, otherwise
keep the character and move one position right.  The fuel only serves to make
the recursion structural; `subst` always supplies enough fuel. -/
def substAux : Nat → List Char → List Char
  | 0, s => s
  | _ + 1, [] => []
  | f + 1, c :: cs =>
    if pat.isPrefixOf (c :: cs) then rep ++ substAux f (cs.drop (pat.length - 1))
    else c :: substAux f cs

/-- The text transformation of line 8: replace every leftmost,
non-overlapping occurrence of `pat` by `rep`, scanning left to right. -/
def subst (s : List Char) : List Char := substAux s.length s

/-- Fuelled scan counting leftmost, non-overlapping occurrences of `p`. -/
def countOccAux (p : List Char) : Nat → List Char → Nat
  | 0, _ => 0
  | _ + 1, [] => 0
  | f + 1, c :: cs =>
    if p.isPrefixOf (c :: cs) then 1 + countOccAux p f (cs.drop (p.length - 1))
    else countOccAux p f cs

/-- Number of leftmost, non-overlapping occurrences of `p` in `s`. -/
def countOcc (p s : List Char) : Nat := countOccAux p s.length s

/-- Join a list of chunks, inserting `sep` between consecutive chunks. -/
def joinWith (sep : List Char) : List (List Char) → List Char
  | [] => []
  | [x] => x
  | x :: y :: xs => x ++ sep ++ joinWith sep (y :: xs)

/-- Abstract syntax of regular expressions, covering the constructs Python's
`re` module gives to patterns built from literals, concatenation,
alternation and the Kleene star. -/
inductive Rx where
  | eps : Rx
  | lit : Char → Rx
  | seq : Rx → Rx → Rx
  | alt : Rx → Rx → Rx
  | star : Rx → Rx

/-- Compilation of a metacharacter-free pattern string: a sequence of
character literals, one per character. -/
def seqLits : List Char → Rx
  | [] => .eps
  | c :: cs => .seq (.lit c) (seqLits cs)

/-- The compiled form of `r'result as GenericData'`: the pattern contains no
regex metacharacters, so it compiles to the sequence of its characters. -/
def patRx : Rx := seqLits pat

/-- All lengths of matches of `r` at the start of `s`, in Python's
backtracking priority order (first element = the match `re` commits to).
The star is greedy: longer iterations are tried first, the empty iteration
last.  The fuel bounds the number of star unfoldings. -/
def mlens : Nat → Rx → List Char → List Nat
  | _, .eps, _ => [0]
  | _, .lit _, [] => []
  | _, .lit c, d :: _ => if c == d then [1] else []
  | f, .alt r₁ r₂, s => mlens f r₁ s ++ mlens f r₂ s
  | f, .seq r₁ r₂, s =>
    (mlens f r₁ s).flatMap (fun n => (mlens f r₂ (s.drop n)).map (n + ·))
  | 0, .star _, _ => [0]
  | f + 1, .star r, s =>
    ((mlens (f + 1) r s).filter (· ≠ 0)).flatMap
      (fun n => (mlens f (.star r) (s.drop n)).map (n + ·)) ++ [0]
  termination_by f r _ => (f, sizeOf r)

/-- Fuelled scan implementing `re.sub`: at each position take the
highest-priority match of the regex if any, emit the replacement and skip
past the match (advancing one position on a zero-width match, as Python
does), otherwise keep the character and move right. -/
def reSubAux (r : Rx) (rp : List Char) : Nat → List Char → List Char
  | 0, s => s
  | f + 1, s =>
    match (mlens (s.length + 1) r s).head? with
    | none =>
      match s with
      | [] => []
      | c :: cs => c :: reSubAux r rp f cs
    | some 0 =>
      match s with
      | [] => rp
      | c :: cs => rp ++ c :: reSubAux r rp f cs
    | some (n + 1) => rp ++ reSubAux r rp f (s.drop (n + 1))

/-- Embedding of `re.sub(r, rp, s)`. -/
def pyReSub (r : Rx) (rp s : List Char) : List Char :=
  reSubAux r rp (s.length + 1) s

/-- Errors the script can hit, per the underlying Python I/O primitives. -/
inductive Err where
  | fileNotFound : Err
  | ioError : Err
deriving DecidableEq

/-- Environmental success of each of the four I/O steps of the script:
`open(path, 'r')`, `f.read()` (including decoding), `open(path, 'w')` and
`f.write(...)`.  A missing file forces the first step to fail regardless. -/
structure Sched where
  openROk : Bool
  readOk : Bool
  openWOk : Bool
  writeOk : Bool

/-- Observable I/O events of a run, in order. -/
inductive Ev where
  | readEv : List Char → Ev
  | truncEv : Ev
  | writeEv : List Char → Ev
  | printEv : List Char → Ev
deriving DecidableEq

/-- Embedding of the whole script run against the target file.
`fs` is the state of the target file (`none` = no file at the path).
Returns the file state after the run, the event trace, and `none` on
success or the error that aborted the run.  Per Python semantics a
successful `open(path, 'w')` truncates the file immediately, so a write
that fails afterwards leaves the file empty. -/
def runScript (fs : Option (List Char)) (sc : Sched) :
    Option (List Char) × List Ev × Option Err :=
  match fs with
  | none => (none, [], some .fileNotFound)
  | some content =>
    if sc.openROk = false then (some content, [], some .ioError)
    else if sc.readOk = false then (some content, [], some .ioError)
    else if sc.openWOk = false then (some content, [Ev.readEv content], some .ioError)
    else if sc.writeOk = false then
      (some [], [Ev.readEv content, Ev.truncEv], some .ioError)
    else
      (some (subst content),
        [Ev.readEv content, Ev.truncEv, Ev.writeEv (subst content), Ev.printEv msg],
        none)

/-- Strings returned by successful reads in a trace. -/
def readsOf (tr : List Ev) : List (List Char) :=
  tr.filterMap fun e =>
    match e with
    | Ev.readEv c => some c
    | _ => none

/-- Strings written back by successful writes in a trace. -/
def writesOf (tr : List Ev) : List (List Char) :=
  tr.filterMap fun e =>
    match e with
    | Ev.writeEv c => some c
    | _ => none

/-- Lines printed to standard output in a trace. -/
def printsOf (tr : List Ev) : List (List Char) :=
  tr.filterMap fun e =>
    match e with
    | Ev.printEv c => some c
    | _ => none

/-- The schedule on which every I/O step succeeds. -/
def schedOk : Sched := ⟨true, true, true, true⟩

/-- The schedule on which the write itself fails (for example the disk
filling up) after the file was already opened for writing. -/
def schedWriteFail : Sched := ⟨true, true, true, false⟩

/-- A concrete input containing the pattern three times and the replacement
not at all. -/
def exInput : List Char :=
  "result as GenericData result as GenericData result as GenericData".data

theorem pat_length : pat.length = 21 := rfl

theorem rep_length : rep.length = 32 := rfl

theorem pat_ne_nil : pat ≠ [] := by decide

theorem rep_ne_nil : rep ≠ [] := by decide

theorem substAux_fuel : ∀ f g s, s.length ≤ f → s.length ≤ g →
    substAux f s = substAux g s := by
  intro f
  induction f with
  | zero =>
    intro g s hf _
    have hs : s = [] := List.length_eq_zero.mp (Nat.le_zero.mp hf)
    subst hs
    cases g <;> rfl
  | succ f ih =>
    intro g s hf hg
    cases s with
    | nil => cases g <;> rfl
    | cons c cs =>
      cases g with
      | zero => simp at hg
      | succ g =>
        simp only [substAux]
        by_cases h : pat.isPrefixOf (c :: cs) = true
        · rw [if_pos h, if_pos h]
          have hd := List.length_drop (pat.length - 1) cs
          simp only [List.length_cons] at hf hg
          exact congrArg (rep ++ ·) (ih g _ (by omega) (by omega))
        · rw [if_neg h, if_neg h]
          simp only [List.length_cons] at hf hg
          exact congrArg (c :: ·) (ih g cs (by omega) (by omega))

theorem subst_nil : subst [] = [] := rfl

theorem subst_cons_pos {c : Char} {cs : List Char}
    (h : pat.isPrefixOf (c :: cs) = true) :
    subst (c :: cs) = rep ++ subst (cs.drop 20) := by
  show substAux (cs.length + 1) (c :: cs) = _
  simp only [substAux]
  rw [if_pos h]
  have h20 : pat.length - 1 = 20 := by decide
  rw [h20]
  exact congrArg (rep ++ ·)
    (substAux_fuel cs.length (cs.drop 20).length (cs.drop 20)
      (by have := List.length_drop 20 cs; omega) le_rfl)

theorem subst_cons_neg {c : Char} {cs : List Char}
    (h : ¬ pat.isPrefixOf (c :: cs) = true) :
    subst (c :: cs) = c :: subst cs := by
  show substAux (cs.length + 1) (c :: cs) = _
  simp only [substAux]
  rw [if_neg h]
  rfl

theorem countOcc_nil (p : List Char) : countOcc p [] = 0 := rfl

theorem countOccAux_fuel (p : List Char) : ∀ f g s, s.length ≤ f → s.length ≤ g →
    countOccAux p f s = countOccAux p g s := by
  intro f
  induction f with
  | zero =>
    intro g s hf _
    have hs : s = [] := List.length_eq_zero.mp (Nat.le_zero.mp hf)
    subst hs
    cases g <;> rfl
  | succ f ih =>
    intro g s hf hg
    cases s with
    | nil => cases g <;> rfl
    | cons c cs =>
      cases g with
      | zero => simp at hg
      | succ g =>
        simp only [countOccAux]
        by_cases h : p.isPrefixOf (c :: cs) = true
        · rw [if_pos h, if_pos h]
          have hd := List.length_drop (p.length - 1) cs
          simp only [List.length_cons] at hf hg
          exact congrArg (1 + ·) (ih g _ (by omega) (by omega))
        · rw [if_neg h, if_neg h]
          simp only [List.length_cons] at hf hg
          exact ih g cs (by omega) (by omega)

theorem countOcc_cons_pos (p : List Char) {c : Char} {cs : List Char}
    (h : p.isPrefixOf (c :: cs) = true) :
    countOcc p (c :: cs) = 1 + countOcc p (cs.drop (p.length - 1)) := by
  show countOccAux p (cs.length + 1) (c :: cs) = _
  simp only [countOccAux]
  rw [if_pos h]
  exact congrArg (1 + ·)
    (countOccAux_fuel p cs.length (cs.drop (p.length - 1)).length _
      (by have := List.length_drop (p.length - 1) cs; omega) le_rfl)

theorem countOcc_cons_neg (p : List Char) {c : Char} {cs : List Char}
    (h : ¬ p.isPrefixOf (c :: cs) = true) :
    countOcc p (c :: cs) = countOcc p cs := by
  show countOccAux p (cs.length + 1) (c :: cs) = _
  simp only [countOccAux]
  rw [if_neg h]
  exact countOccAux_fuel p cs.length cs.length cs (by omega) le_rfl

theorem not_prefix_of_mismatch (p u X : List Char) (i : Nat)
    (hip : i < p.length) (hiu : i < u.length) (hne : p[i]? ≠ u[i]?) :
    ¬ p <+: (u ++ X) := by
  rintro ⟨t, ht⟩
  apply hne
  have h1 : (p ++ t)[i]? = p[i]? := by
    rw [List.getElem?_append, if_pos hip]
  have h2 : (u ++ X)[i]? = u[i]? := by
    rw [List.getElem?_append, if_pos hiu]
  rw [← h1, ht, h2]

theorem pat_rep_mismatch :
    ∀ k < 32, ∃ i < 21, k + i < 32 ∧ pat[i]? ≠ rep[k + i]? := by decide

theorem no_pat_in_rep_tail (k : Nat) (hk : k < 32) (X : List Char) :
    ¬ pat <+: (rep.drop k ++ X) := by
  obtain ⟨i, hi21, hlt, hne⟩ := pat_rep_mismatch k hk
  apply not_prefix_of_mismatch pat (rep.drop k) X i
  · rw [pat_length]; exact hi21
  · rw [List.length_drop, rep_length]; omega
  · rw [List.getElem?_drop]; exact hne

theorem subst_append_of_no_match :
    ∀ u X : List Char, (∀ k, k < u.length → ¬ pat <+: (u.drop k ++ X)) →
    subst (u ++ X) = u ++ subst X := by
  intro u
  induction u with
  | nil => intro X _; rfl
  | cons c u ih =>
    intro X h
    have h0 : ¬ pat.isPrefixOf (c :: (u ++ X)) = true := by
      intro hb
      exact h 0 (by simp) (List.isPrefixOf_iff_prefix.mp hb)
    rw [show (c :: u) ++ X = c :: (u ++ X) from rfl, subst_cons_neg h0]
    have hrec : subst (u ++ X) = u ++ subst X := by
      apply ih
      intro k hk
      exact h (k + 1) (by simp only [List.length_cons]; omega)
    rw [hrec]
    rfl

theorem countOcc_append_of_no_match :
    ∀ u X : List Char, (∀ k, k < u.length → ¬ pat <+: (u.drop k ++ X)) →
    countOcc pat (u ++ X) = countOcc pat X := by
  intro u
  induction u with
  | nil => intro X _; rfl
  | cons c u ih =>
    intro X h
    have h0 : ¬ pat.isPrefixOf (c :: (u ++ X)) = true := by
      intro hb
      exact h 0 (by simp) (List.isPrefixOf_iff_prefix.mp hb)
    rw [show (c :: u) ++ X = c :: (u ++ X) from rfl, countOcc_cons_neg pat h0]
    have hrec : countOcc pat (u ++ X) = countOcc pat X := by
      apply ih
      intro k hk
      exact h (k + 1) (by simp only [List.length_cons]; omega)
    rw [hrec]

theorem subst_rep_append (X : List Char) : subst (rep ++ X) = rep ++ subst X :=
  subst_append_of_no_match rep X
    (fun k hk => no_pat_in_rep_tail k (by rwa [rep_length] at hk) X)

theorem countOcc_pat_rep_append (X : List Char) :
    countOcc pat (rep ++ X) = countOcc pat X :=
  countOcc_append_of_no_match rep X
    (fun k hk => no_pat_in_rep_tail k (by rwa [rep_length] at hk) X)

theorem countOcc_cons_self (p X : List Char) (c : Char) (cs : List Char)
    (hp : p = c :: cs) : countOcc p (p ++ X) = 1 + countOcc p X := by
  subst hp
  have hpre : (c :: cs).isPrefixOf ((c :: cs) ++ X) = true :=
    List.isPrefixOf_iff_prefix.mpr (List.prefix_append _ _)
  rw [show (c :: cs) ++ X = c :: (cs ++ X) from rfl] at hpre ⊢
  rw [countOcc_cons_pos _ hpre]
  have hlen : (c :: cs).length - 1 = cs.length := by simp
  rw [hlen, List.drop_left]

theorem subst_decomp : ∀ s : List Char,
    subst s = s ∨ ∃ u v, s = u ++ pat ++ v ∧ subst s = u ++ rep ++ subst v := by
  have H : ∀ n, ∀ s : List Char, s.length ≤ n →
      subst s = s ∨ ∃ u v, s = u ++ pat ++ v ∧ subst s = u ++ rep ++ subst v := by
    intro n
    induction n with
    | zero =>
      intro s hs
      have hnil : s = [] := List.length_eq_zero.mp (Nat.le_zero.mp hs)
      subst hnil
      exact Or.inl rfl
    | succ n ih =>
      intro s hs
      cases s with
      | nil => exact Or.inl rfl
      | cons c cs =>
        by_cases h : pat.isPrefixOf (c :: cs) = true
        · right
          refine ⟨[], cs.drop 20, ?_, ?_⟩
          · obtain ⟨t, ht⟩ := List.isPrefixOf_iff_prefix.mp h
            have hteq : t = cs.drop 20 := by
              have hdt := congrArg (List.drop pat.length) ht
              rw [List.drop_left] at hdt
              rw [pat_length] at hdt
              simpa using hdt
            rw [show ([] : List Char) ++ pat ++ cs.drop 20 = pat ++ cs.drop 20 from rfl]
            rw [← hteq, ht]
          · rw [subst_cons_pos h]
            rfl
        · have hcs : cs.length ≤ n := by
            simp only [List.length_cons] at hs; omega
          cases ih cs hcs with
          | inl hl =>
            left
            rw [subst_cons_neg h, hl]
          | inr hr =>
            obtain ⟨u, v, hsv, hsub⟩ := hr
            right
            refine ⟨c :: u, v, ?_, ?_⟩
            · rw [show (c :: u) ++ pat ++ v = c :: (u ++ pat ++ v) from rfl, ← hsv]
            · rw [subst_cons_neg h, hsub]
              rfl
  intro s
  exact H s.length s le_rfl

theorem pat_drop_not_pre_rep :
    ∀ j < 21, 0 < j → (pat.drop j).isPrefixOf rep = false := by decide

theorem rep_drop_not_pre_rep :
    ∀ j < 32, 0 < j → (rep.drop j).isPrefixOf rep = false := by decide

theorem prefix_of_append_left {l m x : List Char} (h : l <+: m ++ x)
    (hlen : l.length ≤ m.length) : l <+: m :=
  List.prefix_of_prefix_length_le h (List.prefix_append m x) hlen

theorem infix_of_pre {l m : List Char} (h : l <+: m) : l <:+: m := by
  obtain ⟨t, ht⟩ := h
  exact ⟨[], t, by simpa using ht⟩

theorem take_append₂ (u w z : List Char) (n : Nat) (hn : n ≤ u.length) :
    (u ++ w ++ z).take n = u.take n := by
  rw [List.take_append_eq_append_take, List.take_append_eq_append_take]
  have h1 : n - u.length = 0 := Nat.sub_eq_zero_of_le hn
  have h2 : n - (u ++ w).length = 0 := by
    rw [List.length_append]; omega
  rw [h1, h2]
  simp

theorem drop_cons_append (c : Char) (u Y : List Char) :
    (c :: (u ++ Y)).drop (u.length + 1) = Y := by
  rw [List.drop_succ_cons]
  exact List.drop_left u Y

theorem prefix_stable {c : Char} {cs : List Char}
    (h : ¬ pat <+: (c :: cs)) : ¬ pat <+: (c :: subst cs) := by
  intro hcon
  cases subst_decomp cs with
  | inl he => rw [he] at hcon; exact h hcon
  | inr hr =>
    obtain ⟨u, v, hcs, hsub⟩ := hr
    rw [hsub] at hcon
    by_cases hu : 20 ≤ u.length
    · apply h
      rw [List.prefix_iff_eq_take] at hcon ⊢
      rw [pat_length] at hcon ⊢
      rw [hcs, List.take_succ_cons, take_append₂ u pat v 20 hu]
      rw [List.take_succ_cons, take_append₂ u rep (subst v) 20 hu] at hcon
      exact hcon
    · obtain ⟨t, ht⟩ := hcon
      rw [List.append_assoc] at ht
      have hd := congrArg (List.drop (u.length + 1)) ht
      rw [List.drop_append_eq_append_drop] at hd
      rw [pat_length] at hd
      have h0 : u.length + 1 - 21 = 0 := by omega
      rw [h0, List.drop_zero, drop_cons_append] at hd
      have hpre : pat.drop (u.length + 1) <+: rep := by
        apply prefix_of_append_left (x := subst v)
        · exact ⟨t, hd⟩
        · rw [List.length_drop, pat_length, rep_length]; omega
      have hf := pat_drop_not_pre_rep (u.length + 1) (by omega) (by omega)
      rw [← List.isPrefixOf_iff_prefix] at hpre
      rw [hf] at hpre
      simp at hpre

theorem rep_prefix_stable {c : Char} {cs : List Char}
    (h : ¬ rep <:+: (c :: cs)) : ¬ rep <+: (c :: subst cs) := by
  intro hcon
  cases subst_decomp cs with
  | inl he => rw [he] at hcon; exact h (infix_of_pre hcon)
  | inr hr =>
    obtain ⟨u, v, hcs, hsub⟩ := hr
    rw [hsub] at hcon
    by_cases hu : 31 ≤ u.length
    · apply h
      apply infix_of_pre
      rw [List.prefix_iff_eq_take] at hcon ⊢
      rw [rep_length] at hcon ⊢
      rw [hcs, List.take_succ_cons, take_append₂ u pat v 31 hu]
      rw [List.take_succ_cons, take_append₂ u rep (subst v) 31 hu] at hcon
      exact hcon
    · obtain ⟨t, ht⟩ := hcon
      rw [List.append_assoc] at ht
      have hd := congrArg (List.drop (u.length + 1)) ht
      rw [List.drop_append_eq_append_drop] at hd
      rw [rep_length] at hd
      have h0 : u.length + 1 - 32 = 0 := by omega
      rw [h0, List.drop_zero, drop_cons_append] at hd
      have hpre : rep.drop (u.length + 1) <+: rep := by
        apply prefix_of_append_left (x := subst v)
        · exact ⟨t, hd⟩
        · rw [List.length_drop, rep_length]; omega
      have hf := rep_drop_not_pre_rep (u.length + 1) (by omega) (by omega)
      rw [← List.isPrefixOf_iff_prefix] at hpre
      rw [hf] at hpre
      simp at hpre

theorem infix_of_suf {l m : List Char} (h : l <:+ m) : l <:+: m := by
  obtain ⟨t, ht⟩ := h
  exact ⟨t, [], by simpa using ht⟩

theorem countOcc_self_append (p X : List Char) (hp : p ≠ []) :
    countOcc p (p ++ X) = 1 + countOcc p X := by
  cases p with
  | nil => exact absurd rfl hp
  | cons c cs => exact countOcc_cons_self (c :: cs) X c cs rfl

theorem countOcc_eq_zero_iff (p : List Char) (hp : p ≠ []) :
    ∀ s : List Char, countOcc p s = 0 ↔ ¬ p <:+: s := by
  intro s
  induction s with
  | nil =>
    constructor
    · intro _ hinf
      exact hp (List.infix_nil.mp hinf)
    · intro _
      rfl
  | cons c cs ih =>
    by_cases h : p.isPrefixOf (c :: cs) = true
    · rw [countOcc_cons_pos p h]
      constructor
      · intro h0
        exact absurd h0 (by omega)
      · intro hni
        exact absurd (infix_of_pre (List.isPrefixOf_iff_prefix.mp h)) hni
    · rw [countOcc_cons_neg p h, ih, List.infix_cons_iff]
      constructor
      · intro hcs
        rintro (hpre | hinf)
        · exact h (List.isPrefixOf_iff_prefix.mpr hpre)
        · exact hcs hinf
      · intro hni hinf
        exact hni (Or.inr hinf)

theorem countOcc_pat_subst_eq_zero : ∀ s : List Char, countOcc pat (subst s) = 0 := by
  have H : ∀ n, ∀ s : List Char, s.length ≤ n → countOcc pat (subst s) = 0 := by
    intro n
    induction n with
    | zero =>
      intro s hs
      have hnil : s = [] := List.length_eq_zero.mp (Nat.le_zero.mp hs)
      subst hnil
      rfl
    | succ n ih =>
      intro s hs
      cases s with
      | nil => rfl
      | cons c cs =>
        simp only [List.length_cons] at hs
        by_cases h : pat.isPrefixOf (c :: cs) = true
        · rw [subst_cons_pos h, countOcc_pat_rep_append]
          exact ih (cs.drop 20) (by have := List.length_drop 20 cs; omega)
        · rw [subst_cons_neg h]
          have hns : ¬ pat.isPrefixOf (c :: subst cs) = true := by
            intro hb
            exact prefix_stable (fun hp => h (List.isPrefixOf_iff_prefix.mpr hp))
              (List.isPrefixOf_iff_prefix.mp hb)
          rw [countOcc_cons_neg pat hns]
          exact ih cs (by omega)
  intro s
  exact H s.length s le_rfl

theorem countOcc_rep_subst : ∀ s : List Char, ¬ rep <:+: s →
    countOcc rep (subst s) = countOcc pat s := by
  have H : ∀ n, ∀ s : List Char, s.length ≤ n → ¬ rep <:+: s →
      countOcc rep (subst s) = countOcc pat s := by
    intro n
    induction n with
    | zero =>
      intro s hs _
      have hnil : s = [] := List.length_eq_zero.mp (Nat.le_zero.mp hs)
      subst hnil
      rfl
    | succ n ih =>
      intro s hs hni
      cases s with
      | nil => rfl
      | cons c cs =>
        simp only [List.length_cons] at hs
        by_cases h : pat.isPrefixOf (c :: cs) = true
        · rw [subst_cons_pos h, countOcc_self_append rep (subst (cs.drop 20)) rep_ne_nil]
          rw [countOcc_cons_pos pat h]
          have h21 : pat.length - 1 = 20 := by decide
          rw [h21]
          congr 1
          apply ih (cs.drop 20) (by have := List.length_drop 20 cs; omega)
          intro hi
          apply hni
          have h1 : cs.drop 20 <:+ cs := List.drop_suffix 20 cs
          have h2 : cs <:+ (c :: cs) := ⟨[c], rfl⟩
          exact hi.trans (infix_of_suf (h1.trans h2))
        · rw [subst_cons_neg h]
          have hns : ¬ rep.isPrefixOf (c :: subst cs) = true := by
            intro hb
            exact rep_prefix_stable hni (List.isPrefixOf_iff_prefix.mp hb)
          rw [countOcc_cons_neg rep hns, countOcc_cons_neg pat h]
          apply ih cs (by omega)
          intro hi
          exact hni (List.infix_cons_iff.mpr (Or.inr hi))
  intro s
  exact H s.length s le_rfl

theorem subst_idem_all : ∀ s : List Char, subst (subst s) = subst s := by
  have H : ∀ n, ∀ s : List Char, s.length ≤ n → subst (subst s) = subst s := by
    intro n
    induction n with
    | zero =>
      intro s hs
      have hnil : s = [] := List.length_eq_zero.mp (Nat.le_zero.mp hs)
      subst hnil
      rfl
    | succ n ih =>
      intro s hs
      cases s with
      | nil => rfl
      | cons c cs =>
        simp only [List.length_cons] at hs
        by_cases h : pat.isPrefixOf (c :: cs) = true
        · rw [subst_cons_pos h, subst_rep_append]
          rw [ih (cs.drop 20) (by have := List.length_drop 20 cs; omega)]
        · rw [subst_cons_neg h]
          have hns : ¬ pat.isPrefixOf (c :: subst cs) = true := by
            intro hb
            exact prefix_stable (fun hp => h (List.isPrefixOf_iff_prefix.mpr hp))
              (List.isPrefixOf_iff_prefix.mp hb)
          rw [subst_cons_neg hns, ih cs (by omega)]
  intro s
  exact H s.length s le_rfl

theorem subst_length_all : ∀ s : List Char,
    (subst s).length = s.length + 11 * countOcc pat s := by
  have H : ∀ n, ∀ s : List Char, s.length ≤ n →
      (subst s).length = s.length + 11 * countOcc pat s := by
    intro n
    induction n with
    | zero =>
      intro s hs
      have hnil : s = [] := List.length_eq_zero.mp (Nat.le_zero.mp hs)
      subst hnil
      rfl
    | succ n ih =>
      intro s hs
      cases s with
      | nil => rfl
      | cons c cs =>
        simp only [List.length_cons] at hs
        by_cases h : pat.isPrefixOf (c :: cs) = true
        · rw [subst_cons_pos h, countOcc_cons_pos pat h]
          rw [List.length_append, rep_length]
          rw [ih (cs.drop 20) (by have := List.length_drop 20 cs; omega)]
          have h21 : pat.length - 1 = 20 := by decide
          rw [h21]
          have hlen : 20 ≤ cs.length := by
            have hp := List.isPrefixOf_iff_prefix.mp h
            have hll := hp.length_le
            rw [pat_length] at hll
            simp only [List.length_cons] at hll
            omega
          have hd : (cs.drop 20).length = cs.length - 20 := List.length_drop 20 cs
          simp only [List.length_cons]
          omega
        · rw [subst_cons_neg h, countOcc_cons_neg pat h]
          simp only [List.length_cons]
          rw [ih cs (by omega)]
          omega
  intro s
  exact H s.length s le_rfl

theorem joinWith_cons (sep : List Char) (c : Char) (x : List Char)
    (xs : List (List Char)) :
    joinWith sep ((c :: x) :: xs) = c :: joinWith sep (x :: xs) := by
  cases xs with
  | nil => rfl
  | cons y ys => rfl

theorem subst_parts : ∀ s : List Char, ∃ parts : List (List Char),
    parts ≠ [] ∧ s = joinWith pat parts ∧ subst s = joinWith rep parts ∧
    parts.length = countOcc pat s + 1 := by
  have H : ∀ n, ∀ s : List Char, s.length ≤ n → ∃ parts : List (List Char),
      parts ≠ [] ∧ s = joinWith pat parts ∧ subst s = joinWith rep parts ∧
      parts.length = countOcc pat s + 1 := by
    intro n
    induction n with
    | zero =>
      intro s hs
      have hnil : s = [] := List.length_eq_zero.mp (Nat.le_zero.mp hs)
      subst hnil
      exact ⟨[[]], by simp, rfl, rfl, rfl⟩
    | succ n ih =>
      intro s hs
      cases s with
      | nil => exact ⟨[[]], by simp, rfl, rfl, rfl⟩
      | cons c cs =>
        simp only [List.length_cons] at hs
        by_cases h : pat.isPrefixOf (c :: cs) = true
        · obtain ⟨pv, hne, hj1, hj2, hlen⟩ :=
            ih (cs.drop 20) (by have := List.length_drop 20 cs; omega)
          cases pv with
          | nil => exact absurd rfl hne
          | cons q qs =>
            refine ⟨[] :: q :: qs, by simp, ?_, ?_, ?_⟩
            · show c :: cs = [] ++ pat ++ joinWith pat (q :: qs)
              rw [← hj1]
              obtain ⟨t, ht⟩ := List.isPrefixOf_iff_prefix.mp h
              have hteq : t = cs.drop 20 := by
                have hdt := congrArg (List.drop pat.length) ht
                rw [List.drop_left] at hdt
                rw [pat_length] at hdt
                simpa using hdt
              rw [show ([] : List Char) ++ pat ++ cs.drop 20 = pat ++ cs.drop 20 from rfl]
              rw [← hteq, ht]
            · show subst (c :: cs) = [] ++ rep ++ joinWith rep (q :: qs)
              rw [subst_cons_pos h, ← hj2]
              rfl
            · simp only [List.length_cons] at hlen ⊢
              rw [countOcc_cons_pos pat h]
              have h21 : pat.length - 1 = 20 := by decide
              rw [h21]
              omega
        · obtain ⟨pv, hne, hj1, hj2, hlen⟩ := ih cs (by omega)
          cases pv with
          | nil => exact absurd rfl hne
          | cons p0 ps =>
            refine ⟨(c :: p0) :: ps, by simp, ?_, ?_, ?_⟩
            · rw [joinWith_cons, ← hj1]
            · rw [subst_cons_neg h, joinWith_cons, ← hj2]
            · simp only [List.length_cons] at hlen ⊢
              rw [countOcc_cons_neg pat h]
              omega
  intro s
  exact H s.length s le_rfl

theorem mlens_seqLits : ∀ (l : List Char) (f : Nat) (s : List Char),
    mlens f (seqLits l) s = if l.isPrefixOf s then [l.length] else [] := by
  intro l
  induction l with
  | nil =>
    intro f s
    simp [seqLits, mlens, List.isPrefixOf]
  | cons c cs ih =>
    intro f s
    cases s with
    | nil =>
      simp [seqLits, mlens, List.isPrefixOf]
    | cons d ds =>
      by_cases hc : (c == d) = true
      · simp only [seqLits, mlens, hc, if_true, List.flatMap_cons, List.flatMap_nil,
          List.drop_succ_cons, List.drop_zero, List.append_nil, ih, List.isPrefixOf]
        by_cases hp : cs.isPrefixOf ds = true
        · simp [hp, Nat.add_comm]
        · simp [hp]
      · simp [seqLits, mlens, hc, List.isPrefixOf]

theorem reSubAux_nil (f : Nat) : reSubAux patRx rep f [] = [] := by
  cases f with
  | zero => rfl
  | succ f =>
    have hm : (mlens (([] : List Char).length + 1) patRx []).head? = none := by
      rw [show patRx = seqLits pat from rfl, mlens_seqLits]
      rw [if_neg (by decide)]
      rfl
    simp only [reSubAux, hm]

theorem reSubAux_step_pos (f : Nat) {s : List Char}
    (h : pat.isPrefixOf s = true) :
    reSubAux patRx rep (f + 1) s = rep ++ reSubAux patRx rep f (s.drop 21) := by
  have hm : (mlens (s.length + 1) patRx s).head? = some (20 + 1) := by
    rw [show patRx = seqLits pat from rfl, mlens_seqLits, if_pos h]
    rfl
  simp only [reSubAux, hm]

theorem reSubAux_step_neg (f : Nat) {c : Char} {cs : List Char}
    (h : ¬ pat.isPrefixOf (c :: cs) = true) :
    reSubAux patRx rep (f + 1) (c :: cs) = c :: reSubAux patRx rep f cs := by
  have hm : (mlens ((c :: cs).length + 1) patRx (c :: cs)).head? = none := by
    rw [show patRx = seqLits pat from rfl, mlens_seqLits, if_neg h]
    rfl
  simp only [reSubAux, hm]

theorem reSubAux_eq_subst : ∀ f : Nat, ∀ s : List Char, s.length < f →
    reSubAux patRx rep f s = subst s := by
  intro f
  induction f with
  | zero =>
    intro s hs
    exact absurd hs (Nat.not_lt_zero _)
  | succ f ih =>
    intro s hs
    cases s with
    | nil => exact reSubAux_nil (f + 1)
    | cons c cs =>
      simp only [List.length_cons] at hs
      by_cases h : pat.isPrefixOf (c :: cs) = true
      · rw [reSubAux_step_pos f h, subst_cons_pos h]
        rw [show (c :: cs).drop 21 = cs.drop 20 from rfl]
        exact congrArg (rep ++ ·)
          (ih (cs.drop 20) (by have := List.length_drop 20 cs; omega))
      · rw [reSubAux_step_neg f h, subst_cons_neg h]
        exact congrArg (c :: ·) (ih cs (by omega))

theorem run_success_shape : ∀ (fs : Option (List Char)) (sc : Sched),
    (runScript fs sc).2.2 = none →
    ∃ c, fs = some c ∧
      runScript fs sc =
        (some (subst c),
          [Ev.readEv c, Ev.truncEv, Ev.writeEv (subst c), Ev.printEv msg],
          none) := by
  intro fs sc
  cases fs with
  | none => simp [runScript]
  | some c =>
    obtain ⟨o, r, w, wr⟩ := sc
    cases o <;> cases r <;> cases w <;> cases wr <;> intro h <;>
      simp [runScript] at h ⊢

/-- C1 (counterexample): the claim fails as stated.  The input consisting of
the replacement string itself contains zero occurrences of the pattern, yet
the output of the substitution (which leaves it unchanged) contains one
occurrence of the replacement, not zero. -/
theorem c1_counterexample :
    countOcc pat rep = 0 ∧ ¬ countOcc rep (subst rep) = 0 := by decide

/-- C1 (amended): for every input string containing exactly N leftmost
non-overlapping occurrences of the pattern and no occurrence of the
replacement string, the output of the substitution contains exactly N
occurrences of the replacement and zero occurrences of the pattern. -/
theorem c1_pattern_replacement_counts (s : List Char) (n : Nat)
    (hn : countOcc pat s = n) (hrep : countOcc rep s = 0) :
    countOcc rep (subst s) = n ∧ countOcc pat (subst s) = 0 := by
  constructor
  · rw [← hn]
    exact countOcc_rep_subst s ((countOcc_eq_zero_iff rep rep_ne_nil s).mp hrep)
  · exact countOcc_pat_subst_eq_zero s

/-- C1 (witness): on the concrete input containing the pattern three times
and the replacement zero times, the output contains the replacement exactly
three times and the pattern zero times. -/
theorem c1_pattern_replacement_counts_witness :
    countOcc pat exInput = 3 ∧ countOcc rep exInput = 0 ∧
      (countOcc rep (subst exInput) = 3 ∧ countOcc pat (subst exInput) = 0) :=
  ⟨by decide, by decide,
    c1_pattern_replacement_counts exInput 3 (by decide) (by decide)⟩

/-- C2: the substitution is idempotent — applying the transformation twice
yields the same result as applying it once — and indeed the replacement
text contains no occurrence of the pattern. -/
theorem c2_idempotent :
    (∀ s : List Char, subst (subst s) = subst s) ∧ countOcc pat rep = 0 :=
  ⟨subst_idem_all, by decide⟩

/-- C3: for every input string the output is obtained solely by replacing
the matched spans: the input splits into chunks joined by the pattern, the
output is the same chunks joined by the replacement (so every character
outside a match is preserved, in the same relative order), and the number
of joints equals the number of counted matches. -/
theorem c3_frame_preservation : ∀ s : List Char, ∃ parts : List (List Char),
    parts ≠ [] ∧ s = joinWith pat parts ∧ subst s = joinWith rep parts ∧
    parts.length = countOcc pat s + 1 :=
  subst_parts

/-- C4 (counterexample): the claim fails as stated.  On a run where the
write fails after the file was already opened for writing, the run fails
with an error but the file is neither the transformed text nor its previous
contents: `open(path, 'w')` has already truncated it to empty. -/
theorem c4_counterexample :
    ¬ (((runScript (some pat) schedWriteFail).2.2 = none ∧
          (runScript (some pat) schedWriteFail).1 = some (subst pat))
        ∨ ((runScript (some pat) schedWriteFail).2.2 ≠ none ∧
          (runScript (some pat) schedWriteFail).1 = some pat)) := by decide

/-- C4 (amended): every run ends in one of four states — success with the
file holding the transformed text; failure on a missing file with no file
created; failure at or before opening the file for writing with the file
unchanged; or failure of the write itself after a successful open for
write, leaving the file truncated to empty (an observable partially
applied state). -/
theorem c4_amended_outcomes : ∀ (fs : Option (List Char)) (sc : Sched),
    ((runScript fs sc).2.2 = none ∧
        ∃ c, fs = some c ∧ (runScript fs sc).1 = some (subst c))
      ∨ ((runScript fs sc).2.2 = some Err.fileNotFound ∧ fs = none ∧
          (runScript fs sc).1 = none)
      ∨ ((runScript fs sc).2.2 = some Err.ioError ∧ (runScript fs sc).1 = fs)
      ∨ ((runScript fs sc).2.2 = some Err.ioError ∧
          (runScript fs sc).1 = some [] ∧ sc.openWOk = true ∧
          sc.writeOk = false) := by
  intro fs sc
  cases fs with
  | none => simp [runScript]
  | some c =>
    obtain ⟨o, r, w, wr⟩ := sc
    cases o <;> cases r <;> cases w <;> cases wr <;> simp [runScript]

/-- C5: when the target path holds no file, every run fails with a
file-not-found error, performs no events at all (in particular no write and
no truncation), and leaves no file at the path. -/
theorem c5_missing_file : ∀ sc : Sched,
    runScript none sc = (none, [], some Err.fileNotFound) := by
  intro sc
  rfl

/-- C6: running the patcher on an empty file leaves the file empty: the
transformation maps the empty string to the empty string, with zero
matches. -/
theorem c6_empty_file :
    (runScript (some []) schedOk).1 = some [] ∧ subst [] = [] ∧
      countOcc pat [] = 0 :=
  ⟨rfl, rfl, rfl⟩

/-- C7: the regular-expression substitution `re.sub` with the compiled
pattern (a sequence of character literals, since the pattern has no regex
metacharacters) equals the literal left-to-right replacement of each
leftmost, non-overlapping occurrence of the pattern string. -/
theorem c7_regex_literal_equiv : ∀ s : List Char, pyReSub patRx rep s = subst s :=
  fun s => reSubAux_eq_subst (s.length + 1) s (Nat.lt_succ_self _)

/-- C8: on every successful run the trace ends with the write followed by a
single printed line, the fixed confirmation message, with nothing printed
before; on every failing run nothing is printed. -/
theorem c8_confirmation_line : ∀ (fs : Option (List Char)) (sc : Sched),
    ((runScript fs sc).2.2 = none ∧
        ∃ pre c, (runScript fs sc).2.1 = pre ++ [Ev.writeEv c, Ev.printEv msg] ∧
          printsOf pre = [])
      ∨ ((∃ e, (runScript fs sc).2.2 = some e) ∧
          printsOf (runScript fs sc).2.1 = []) := by
  intro fs sc
  cases fs with
  | none => exact Or.inr ⟨⟨Err.fileNotFound, rfl⟩, rfl⟩
  | some c =>
    obtain ⟨o, r, w, wr⟩ := sc
    cases o <;> cases r <;> cases w <;> cases wr <;>
      first
        | exact Or.inr ⟨⟨Err.ioError, rfl⟩, rfl⟩
        | exact Or.inl ⟨rfl, ⟨[Ev.readEv c, Ev.truncEv], subst c, rfl, rfl⟩⟩

/-- C9: the length of the transformed string equals the input length plus
11 times the number of pattern occurrences (the replacement is 11
characters longer than the pattern); in particular the transformation never
shortens its input. -/
theorem c9_length : ∀ s : List Char,
    (subst s).length = s.length + 11 * countOcc pat s ∧
      s.length ≤ (subst s).length := by
  intro s
  have h := subst_length_all s
  exact ⟨h, by omega⟩

/-- C10: the run is deterministic in the file contents: any two successful
runs whose reads returned equal strings write back equal strings, print
the same output, and leave the file in the same state. -/
theorem c10_deterministic : ∀ (fs₁ fs₂ : Option (List Char)) (sc₁ sc₂ : Sched),
    (runScript fs₁ sc₁).2.2 = none → (runScript fs₂ sc₂).2.2 = none →
    readsOf (runScript fs₁ sc₁).2.1 = readsOf (runScript fs₂ sc₂).2.1 →
    writesOf (runScript fs₁ sc₁).2.1 = writesOf (runScript fs₂ sc₂).2.1 ∧
      printsOf (runScript fs₁ sc₁).2.1 = printsOf (runScript fs₂ sc₂).2.1 ∧
      (runScript fs₁ sc₁).1 = (runScript fs₂ sc₂).1 := by
  intro fs₁ fs₂ sc₁ sc₂ h₁ h₂ hr
  obtain ⟨c₁, hc₁, he₁⟩ := run_success_shape fs₁ sc₁ h₁
  obtain ⟨c₂, hc₂, he₂⟩ := run_success_shape fs₂ sc₂ h₂
  rw [he₁, he₂] at hr ⊢
  simp [readsOf] at hr
  subst hr
  exact ⟨rfl, rfl, rfl⟩

/-- C10 (witness): a concrete successful run satisfies the hypotheses and
the conclusion of the determinism theorem. -/
theorem c10_deterministic_witness :
    (runScript (some exInput) schedOk).2.2 = none ∧
      (writesOf (runScript (some exInput) schedOk).2.1 =
          writesOf (runScript (some exInput) schedOk).2.1 ∧
        printsOf (runScript (some exInput) schedOk).2.1 =
          printsOf (runScript (some exInput) schedOk).2.1 ∧
        (runScript (some exInput) schedOk).1 =
          (runScript (some exInput) schedOk).1) :=
  ⟨rfl, c10_deterministic (some exInput) (some exInput) schedOk schedOk rfl rfl rfl⟩
